import Mathlib

/-!
Verification of the view-type encoding and minimal columnar container format
described in the design spec accompanying the PyArrow fixture script
`integration_tests/binaryview_utf8view/generate_test_data.py`.

The repository under verification ships only the fixture generator; the
codec, builders, container writer/reader and validator are described by the
spec. Those components are therefore modelled here directly from the spec's
words (each such definition carries a `Modelled from the spec:` doc comment),
while the concrete test data is embedded from the fixture script itself.

Bytes are modelled as `Nat` values (< 256 wherever they originate from the
encoders), byte regions as `List Nat`, and fallible operations return
`Except ArrowError`.
-/

set_option maxRecDepth 100000

deriving instance DecidableEq for Except

namespace ArrowView

/-- Modelled from the spec: §7 error kinds of the codec/container core. -/
inductive ArrowError where
  | AlreadyFinished
  | MalformedView
  | BufferIndexOutOfRange
  | BitmapLengthMismatch
  | FooterRangeInvalid
  | BadMagic
  | TruncatedFile
  | IndexOutOfRange
  | InvalidEncoding
  deriving DecidableEq, Repr

/-- Little-endian encoding of a `uint32` (spec §4.4: all multi-byte integers
are fixed-width little-endian). -/
def le32 (n : Nat) : List Nat :=
  [n % 256, n / 256 % 256, n / 65536 % 256, n / 16777216 % 256]

/-- Read a little-endian `uint32` from the first four bytes of a region. -/
def readLe32 (bs : List Nat) : Nat :=
  bs.getD 0 0 + 256 * bs.getD 1 0 + 65536 * bs.getD 2 0 + 16777216 * bs.getD 3 0

/-- The slice `bs[off : off+len]` of a byte region. -/
def sliceL (bs : List Nat) (off len : Nat) : List Nat :=
  (bs.drop off).take len

/-- Number of zero bytes needed to pad a region of length `n` to the 8-byte
alignment boundary (spec §4.4). -/
def padLen (n : Nat) : Nat := (8 - n % 8) % 8

/-- Zero-pad a region to the 8-byte alignment boundary (spec §4.4). -/
def pad8 (bs : List Nat) : List Nat := bs ++ List.replicate (padLen bs.length) 0

/-- UTF-8 encoding of a single character, from the code point. -/
def utf8Char (c : Char) : List Nat :=
  let n := c.toNat
  if n < 128 then [n]
  else if n < 2048 then [192 + n / 64, 128 + n % 64]
  else if n < 65536 then [224 + n / 4096, 128 + n / 64 % 64, 128 + n % 64]
  else [240 + n / 262144, 128 + n / 4096 % 64, 128 + n / 64 % 64, 128 + n % 64]

/-- UTF-8 bytes of a string (used to embed the fixture script's literals). -/
def utf8Bytes (s : String) : List Nat := (s.data.map utf8Char).flatten

/-! ## ViewCodec (spec §3, §4.1) -/

/-- Modelled from the spec: §3 view descriptor, a fixed 16-byte record per
logical value — a `uint32` length plus 12 payload bytes. Inline/out-of-line
mode is fully determined by `length` (no separate tag bit): `length ≤ 12`
means the payload holds the value bytes zero-padded, `length > 12` means the
payload holds a 4-byte prefix, a 4-byte buffer index and a 4-byte offset. -/
structure ViewDescriptor where
  length : Nat
  payload : List Nat
  deriving DecidableEq, Repr

/-- Inline mode test: mode is fully determined by the length (spec §3). -/
def descIsInline (d : ViewDescriptor) : Bool := d.length ≤ 12

/-- Buffer index stored in an out-of-line descriptor's payload (bytes 4–7). -/
def viewIdx (d : ViewDescriptor) : Nat := readLe32 (d.payload.drop 4)

/-- Offset stored in an out-of-line descriptor's payload (bytes 8–11). -/
def viewOff (d : ViewDescriptor) : Nat := readLe32 (d.payload.drop 8)

/-- Modelled from the spec: §4.1 `encode(value) -> (ViewDescriptor,
bytes_to_append)`. `None` gives length 0 with zeroed payload and no appended
bytes; values of at most 12 bytes are stored inline zero-padded; longer
values store prefix/buffer-index/offset (index and offset assigned by the
caller) and hand the full value back as the bytes to append. -/
def encode (value : Option (List Nat)) (bufIndex offset : Nat) :
    ViewDescriptor × List Nat :=
  match value with
  | none => (⟨0, List.replicate 12 0⟩, [])
  | some v =>
    if v.length ≤ 12 then
      (⟨v.length, v ++ List.replicate (12 - v.length) 0⟩, [])
    else
      (⟨v.length, v.take 4 ++ le32 bufIndex ++ le32 offset⟩, v)

/-- Modelled from the spec: §4.1 `decode(descriptor, buffer_lookup)`:
reconstructs `length` bytes from the inline payload when `length ≤ 12`, else
from `buffer_lookup(index)[offset : offset+length]`; fails with
`MalformedView` if the index is out of range or the slice exceeds the
buffer's bounds. -/
def decode (d : ViewDescriptor) (buffers : List (List Nat)) :
    Except ArrowError (List Nat) :=
  if d.length ≤ 12 then
    .ok (d.payload.take d.length)
  else
    match buffers.get? (viewIdx d) with
    | none => .error .MalformedView
    | some buf =>
      if viewOff d + d.length ≤ buf.length then
        .ok (sliceL buf (viewOff d) d.length)
      else .error .MalformedView

/-! ## Basic lemmas about the byte helpers -/

theorem le32_length (n : Nat) : (le32 n).length = 4 := rfl

theorem readLe32_le32_append (n : Nat) (r : List Nat) (h : n < 2 ^ 32) :
    readLe32 (le32 n ++ r) = n := by
  simp only [le32, readLe32, List.cons_append, List.getD_cons_zero, List.getD_cons_succ]
  omega

theorem drop_append_of_length (a b : List Nat) (n : Nat) (h : a.length = n) :
    (a ++ b).drop n = b := by
  subst h; exact List.drop_left a b

theorem take_append_of_length (a b : List Nat) (n : Nat) (h : a.length = n) :
    (a ++ b).take n = a := by
  subst h; exact List.take_left a b

theorem readLe32_le32 (n : Nat) (h : n < 2 ^ 32) : readLe32 (le32 n) = n := by
  have := readLe32_le32_append n [] h
  simpa using this

theorem sliceL_append (pre mid suf : List Nat) :
    sliceL (pre ++ mid ++ suf) pre.length mid.length = mid := by
  simp only [sliceL, List.append_assoc, List.drop_left, List.take_left]

/-! ## ViewCodec correctness helpers -/

theorem encode_inline (v : List Nat) (idx off : Nat) (h : v.length ≤ 12) :
    encode (some v) idx off =
      (⟨v.length, v ++ List.replicate (12 - v.length) 0⟩, []) := by
  simp [encode, h]

theorem encode_outline (v : List Nat) (idx off : Nat) (h : 12 < v.length) :
    encode (some v) idx off =
      (⟨v.length, v.take 4 ++ le32 idx ++ le32 off⟩, v) := by
  simp [encode, Nat.not_le.mpr h]

theorem decode_encode_inline (v : List Nat) (idx off : Nat)
    (bufs : List (List Nat)) (h : v.length ≤ 12) :
    decode (encode (some v) idx off).1 bufs = .ok v := by
  rw [encode_inline v idx off h]
  simp only [decode, h, if_pos]
  rw [List.take_left]

theorem viewIdx_encode_outline (v : List Nat) (idx off : Nat)
    (h : 12 < v.length) (hidx : idx < 2 ^ 32) :
    viewIdx (encode (some v) idx off).1 = idx := by
  rw [encode_outline v idx off h]
  simp only [viewIdx]
  have h4 : (v.take 4).length = 4 := by
    simp [List.length_take]; omega
  rw [List.append_assoc, drop_append_of_length _ _ 4 h4]
  exact readLe32_le32_append idx (le32 off) hidx

theorem viewOff_encode_outline (v : List Nat) (idx off : Nat)
    (h : 12 < v.length) (hoff : off < 2 ^ 32) :
    viewOff (encode (some v) idx off).1 = off := by
  rw [encode_outline v idx off h]
  simp only [viewOff]
  have h8 : (v.take 4 ++ le32 idx).length = 8 := by
    simp [List.length_take, le32_length]; omega
  rw [drop_append_of_length _ _ 8 h8]
  exact readLe32_le32 off hoff

theorem decode_encode_outline (v pre suf : List Nat) (idx : Nat)
    (bufs : List (List Nat)) (h : 12 < v.length) (hidx : idx < 2 ^ 32)
    (hoff : pre.length < 2 ^ 32)
    (hbuf : bufs.get? idx = some (pre ++ v ++ suf)) :
    decode (encode (some v) idx pre.length).1 bufs = .ok v := by
  have hI := viewIdx_encode_outline v idx pre.length h hidx
  have hO := viewOff_encode_outline v idx pre.length h hoff
  have hlen : (encode (some v) idx pre.length).1.length = v.length := by
    rw [encode_outline v idx pre.length h]
  have hb : pre.length + v.length ≤ (pre ++ v ++ suf).length := by
    simp [List.length_append]
  rw [decode, hlen, if_neg (Nat.not_le.mpr h), hI, hO, hbuf]
  show (if pre.length + v.length ≤ (pre ++ v ++ suf).length then
      Except.ok (sliceL (pre ++ v ++ suf) pre.length v.length)
    else Except.error ArrowError.MalformedView) = Except.ok v
  rw [if_pos hb, sliceL_append]

theorem encode_payload_take4 (v : List Nat) (idx off : Nat) (h : 12 < v.length) :
    (encode (some v) idx off).1.payload.take 4 = v.take 4 := by
  rw [encode_outline v idx off h]
  have h4 : (v.take 4).length = 4 := by
    simp [List.length_take]; omega
  show (v.take 4 ++ le32 idx ++ le32 off).take 4 = v.take 4
  rw [List.append_assoc, take_append_of_length _ _ 4 h4]

/-- C4: for every byte sequence `v` with `len(v) ≤ 12`, `decode(encode(v))`
returns `v`, the descriptor is in inline mode, and the payload is the value
bytes followed by zero padding to 12 bytes. -/
theorem c4_inline_encode_decode (v : List Nat) (idx off : Nat)
    (bufs : List (List Nat)) (h : v.length ≤ 12) :
    decode (encode (some v) idx off).1 bufs = .ok v ∧
    descIsInline (encode (some v) idx off).1 = true ∧
    (encode (some v) idx off).1.payload =
      v ++ List.replicate (12 - v.length) 0 := by
  refine ⟨decode_encode_inline v idx off bufs h, ?_, ?_⟩
  · rw [encode_inline v idx off h]
    simpa [descIsInline] using h
  · rw [encode_inline v idx off h]

theorem c4_inline_encode_decode_witness :
    ([104, 105] : List Nat).length ≤ 12 ∧
    (decode (encode (some [104, 105]) 0 0).1 [] = .ok [104, 105] ∧
     descIsInline (encode (some [104, 105]) 0 0).1 = true ∧
     (encode (some [104, 105]) 0 0).1.payload =
       [104, 105] ++ List.replicate 10 0) :=
  ⟨by decide, c4_inline_encode_decode [104, 105] 0 0 [] (by decide)⟩

/-- C5: for every byte sequence `v` with `len(v) > 12`, `decode(encode(v))`
returns `v`, the descriptor is in out-of-line mode, its 4-byte prefix equals
`v[0:4]`, and the referenced backing buffer holds the entire value (`length`
bytes starting at the stored offset). -/
theorem c5_outline_encode_decode (v pre suf : List Nat) (idx : Nat)
    (bufs : List (List Nat)) (h : 12 < v.length) (hidx : idx < 2 ^ 32)
    (hoff : pre.length < 2 ^ 32)
    (hbuf : bufs.get? idx = some (pre ++ v ++ suf)) :
    (encode (some v) idx pre.length).2 = v ∧
    decode (encode (some v) idx pre.length).1 bufs = .ok v ∧
    descIsInline (encode (some v) idx pre.length).1 = false ∧
    (encode (some v) idx pre.length).1.payload.take 4 = v.take 4 ∧
    sliceL (pre ++ v ++ suf) (viewOff (encode (some v) idx pre.length).1)
      (encode (some v) idx pre.length).1.length = v := by
  refine ⟨?_, decode_encode_outline v pre suf idx bufs h hidx hoff hbuf, ?_,
    encode_payload_take4 v idx pre.length h, ?_⟩
  · rw [encode_outline v idx pre.length h]
  · rw [encode_outline v idx pre.length h]
    simp [descIsInline, Nat.not_le.mpr h]
  · rw [viewOff_encode_outline v idx pre.length h hoff]
    have hlen : (encode (some v) idx pre.length).1.length = v.length := by
      rw [encode_outline v idx pre.length h]
    rw [hlen, sliceL_append]

theorem c5_outline_encode_decode_witness :
    12 < (List.replicate 13 7 : List Nat).length ∧ (0 : Nat) < 2 ^ 32 ∧
    ((1 : Nat) < 2 ^ 32) ∧
    ([[9] ++ List.replicate 13 7 ++ [8]].get? 0 =
      some ([9] ++ List.replicate 13 7 ++ [8])) ∧
    ((encode (some (List.replicate 13 7)) 0 [9].length).2 =
        List.replicate 13 7 ∧
     decode (encode (some (List.replicate 13 7)) 0 [9].length).1
        [[9] ++ List.replicate 13 7 ++ [8]] = .ok (List.replicate 13 7) ∧
     descIsInline (encode (some (List.replicate 13 7)) 0 [9].length).1 = false ∧
     (encode (some (List.replicate 13 7)) 0 [9].length).1.payload.take 4 =
        (List.replicate 13 7 : List Nat).take 4 ∧
     sliceL ([9] ++ List.replicate 13 7 ++ [8])
        (viewOff (encode (some (List.replicate 13 7)) 0 [9].length).1)
        (encode (some (List.replicate 13 7)) 0 [9].length).1.length =
        List.replicate 13 7) :=
  ⟨by decide, by decide, by decide, by decide,
    c5_outline_encode_decode (List.replicate 13 7) [9] [8] 0
      [[9] ++ List.replicate 13 7 ++ [8]] (by decide) (by decide) (by decide)
      (by decide)⟩

/-- C3: the storage mode is fully determined by the byte length with an exact
boundary at 12 — a value of length exactly 12 is always inline, a value of
length exactly 13 is always out-of-line, and both decode back to their
original bytes. -/
theorem c3_boundary_exact (v w pre suf : List Nat) (idx : Nat)
    (bufs bufs2 : List (List Nat)) (hv : v.length = 12) (hw : w.length = 13)
    (hidx : idx < 2 ^ 32) (hoff : pre.length < 2 ^ 32)
    (hbuf : bufs2.get? idx = some (pre ++ w ++ suf)) :
    descIsInline (encode (some v) idx pre.length).1 = true ∧
    decode (encode (some v) idx pre.length).1 bufs = .ok v ∧
    descIsInline (encode (some w) idx pre.length).1 = false ∧
    decode (encode (some w) idx pre.length).1 bufs2 = .ok w := by
  have hv' : v.length ≤ 12 := by omega
  have hw' : 12 < w.length := by omega
  refine ⟨?_, decode_encode_inline v idx pre.length bufs hv', ?_,
    decode_encode_outline w pre suf idx bufs2 hw' hidx hoff hbuf⟩
  · rw [encode_inline v idx pre.length hv']
    simpa [descIsInline] using hv'
  · rw [encode_outline w idx pre.length hw']
    simp [descIsInline, Nat.not_le.mpr hw']

theorem c3_boundary_exact_witness :
    (List.replicate 12 5 : List Nat).length = 12 ∧
    (List.replicate 13 6 : List Nat).length = 13 ∧ (0 : Nat) < 2 ^ 32 ∧
    (([] : List Nat).length < 2 ^ 32) ∧
    ([List.replicate 13 6].get? 0 =
      some (([] : List Nat) ++ List.replicate 13 6 ++ [])) ∧
    (descIsInline (encode (some (List.replicate 12 5)) 0
        ([] : List Nat).length).1 = true ∧
     decode (encode (some (List.replicate 12 5)) 0 ([] : List Nat).length).1
        [] = .ok (List.replicate 12 5) ∧
     descIsInline (encode (some (List.replicate 13 6)) 0
        ([] : List Nat).length).1 = false ∧
     decode (encode (some (List.replicate 13 6)) 0 ([] : List Nat).length).1
        [List.replicate 13 6] = .ok (List.replicate 13 6)) :=
  ⟨by decide, by decide, by decide, by decide, by decide,
    c3_boundary_exact (List.replicate 12 5) (List.replicate 13 6) [] [] 0 []
      [List.replicate 13 6] (by decide) (by decide) (by decide) (by decide)
      (by decide)⟩

/-! ## Null bitmap (spec §3) -/

/-- Modelled from the spec: §3 null bitmap packing — one bit per value,
least-significant-bit-first within each byte. `bitsToByte` packs up to eight
validity bits into one byte. -/
def bitsToByte : List Bool → Nat
  | [] => 0
  | b :: rest => (if b then 1 else 0) + 2 * bitsToByte rest

/-- Pack `k` bytes' worth of bits, eight at a time. -/
def packBitsAux : Nat → List Bool → List Nat
  | 0, _ => []
  | k + 1, bs => bitsToByte (bs.take 8) :: packBitsAux k (bs.drop 8)

/-- Modelled from the spec: §3 null bitmap — bit-packed LSB-first, padded to
a byte boundary, so `ceil(count/8)` bytes. -/
def packBits (bs : List Bool) : List Nat :=
  packBitsAux ((bs.length + 7) / 8) bs

theorem packBitsAux_length (k : Nat) (bs : List Bool) :
    (packBitsAux k bs).length = k := by
  induction k generalizing bs with
  | zero => rfl
  | succ n ih => simp [packBitsAux, ih]

theorem packBits_length (bs : List Bool) :
    (packBits bs).length = (bs.length + 7) / 8 :=
  packBitsAux_length _ bs

theorem testBit_bitsToByte (bs : List Bool) (i : Nat) :
    (bitsToByte bs).testBit i = bs.getD i false := by
  induction bs generalizing i with
  | nil => simp [bitsToByte]
  | cons b rest ih =>
    cases i with
    | zero =>
      simp only [Nat.testBit_zero, bitsToByte, List.getD_cons_zero]
      cases b <;> simp
    | succ j =>
      rw [Nat.testBit_succ]
      have hdiv : ((if b then 1 else 0) + 2 * bitsToByte rest) / 2 =
          bitsToByte rest := by split <;> omega
      simp only [bitsToByte, hdiv, List.getD_cons_succ]
      exact ih j

theorem packBitsAux_getBit (k : Nat) (bs : List Bool) (i : Nat)
    (hi : i < 8 * k) :
    ((packBitsAux k bs).getD (i / 8) 0).testBit (i % 8) = bs.getD i false := by
  induction k generalizing bs i with
  | zero => omega
  | succ n ih =>
    by_cases h8 : i < 8
    · have hq : i / 8 = 0 := Nat.div_eq_of_lt h8
      have hr : i % 8 = i := Nat.mod_eq_of_lt h8
      simp only [packBitsAux, hq, hr, List.getD_cons_zero]
      rw [testBit_bitsToByte]
      rcases Nat.lt_or_ge i bs.length with hlt | hge
      · have : (bs.take 8).getD i false = bs.getD i false := by
          simp [List.getD_eq_getElem?_getD, List.getElem?_take, h8]
        exact this
      · rw [List.getD_eq_default _ _ (by simp [List.length_take]; omega),
          List.getD_eq_default _ _ hge]
    · have h8' : 8 ≤ i := by omega
      have hq : i / 8 = (i - 8) / 8 + 1 := by omega
      have hr : i % 8 = (i - 8) % 8 := by omega
      simp only [packBitsAux, hq, hr, List.getD_cons_succ]
      rw [ih (bs.drop 8) (i - 8) (by omega)]
      rcases Nat.lt_or_ge i bs.length with hlt | hge
      · simp [List.getD_eq_getElem?_getD, List.getElem?_drop,
          Nat.add_sub_cancel' h8']
      · rw [List.getD_eq_default _ _ (by simp; omega),
          List.getD_eq_default _ _ hge]

theorem packBits_getBit (bs : List Bool) (i : Nat) (hi : i < bs.length) :
    ((packBits bs).getD (i / 8) 0).testBit (i % 8) = bs.getD i false :=
  packBitsAux_getBit _ bs i (by omega)

/-! ## Column and ColumnBuilder (spec §3, §4.3) -/

/-- Modelled from the spec: §3 column — logical element count, optional null
bitmap (absent means all valid), view-descriptor array with one entry per
element, and the ordered list of backing buffers. -/
structure Column where
  count : Nat
  bitmap : Option (List Nat)
  views : List ViewDescriptor
  buffers : List (List Nat)
  deriving DecidableEq, Repr

/-- Bytes an encoded value appends to the active backing buffer: the whole
value when it is out-of-line, nothing otherwise (spec §4.1). -/
def appendedBytes (v : Option (List Nat)) : List Nat :=
  match v with
  | none => []
  | some w => if w.length ≤ 12 then [] else w

/-- Modelled from the spec: §4.2/§4.3 the backing buffer built by appending
each out-of-line value in order (a single buffer: the spec leaves the
multi-buffer split as an unmandated policy choice). -/
def buildBuf (values : List (Option (List Nat))) : List Nat :=
  (values.map appendedBytes).flatten

/-- Modelled from the spec: §4.3 the descriptor array — each value is
encoded against buffer index 0 at the offset the backing buffer has reached
when the value is appended. -/
def buildViews : List (Option (List Nat)) → Nat → List ViewDescriptor
  | [], _ => []
  | v :: rest, off =>
      (encode v 0 off).1 :: buildViews rest (off + (appendedBytes v).length)

/-- Modelled from the spec: §4.3 `ColumnBuilder.finish` — element count is
the number of appends, the bitmap is dropped when no null was appended, and
the buffers and descriptor array are frozen. -/
def buildColumn (values : List (Option (List Nat))) : Column :=
  { count := values.length
    bitmap :=
      if values.all Option.isSome then none
      else some (packBits (values.map Option.isSome))
    views := buildViews values 0
    buffers := [buildBuf values] }

/-- Modelled from the spec: §4.5 null check — an absent bitmap means all
valid, otherwise the element's LSB-first bit is consulted. -/
def isValid (c : Column) (i : Nat) : Bool :=
  match c.bitmap with
  | none => true
  | some bm => (bm.getD (i / 8) 0).testBit (i % 8)

/-- Modelled from the spec: §4.5 `column.value(i)` — checks the null bit
first; if null returns absent, otherwise delegates to `decode`. -/
def columnValue (c : Column) (i : Nat) : Except ArrowError (Option (List Nat)) :=
  if i < c.count then
    if isValid c i then
      match decode (c.views.getD i ⟨0, List.replicate 12 0⟩) c.buffers with
      | .ok v => .ok (some v)
      | .error e => .error e
    else .ok none
  else .error .IndexOutOfRange

theorem buildViews_length (values : List (Option (List Nat))) (off : Nat) :
    (buildViews values off).length = values.length := by
  induction values generalizing off with
  | nil => rfl
  | cons v rest ih => simp [buildViews, ih]

theorem buildBuf_cons (v : Option (List Nat))
    (rest : List (Option (List Nat))) :
    buildBuf (v :: rest) = appendedBytes v ++ buildBuf rest := by
  simp [buildBuf]

theorem buildViews_getD (values : List (Option (List Nat))) (off i : Nat)
    (hi : i < values.length) :
    (buildViews values off).getD i ⟨0, List.replicate 12 0⟩ =
      (encode (values.getD i none) 0
        (off + (buildBuf (values.take i)).length)).1 := by
  induction values generalizing off i with
  | nil => simp at hi
  | cons v rest ih =>
    cases i with
    | zero => simp [buildViews, buildBuf]
    | succ j =>
      simp only [buildViews, List.getD_cons_succ, List.take_succ_cons,
        buildBuf_cons, List.length_append]
      rw [ih _ j (by simpa using hi)]
      ring_nf

theorem buildBuf_decomp (values : List (Option (List Nat))) (i : Nat)
    (hi : i < values.length) :
    buildBuf values =
      buildBuf (values.take i) ++ appendedBytes (values.getD i none) ++
        buildBuf (values.drop (i + 1)) := by
  induction values generalizing i with
  | nil => simp at hi
  | cons v rest ih =>
    cases i with
    | zero => simp [buildBuf_cons, buildBuf]
    | succ j =>
      simp only [List.take_succ_cons, List.drop_succ_cons, List.getD_cons_succ,
        buildBuf_cons, List.append_assoc]
      rw [ih j (by simpa using hi)]
      simp [List.append_assoc]

theorem isValid_buildColumn (values : List (Option (List Nat))) (i : Nat)
    (hi : i < values.length) :
    isValid (buildColumn values) i = (values.getD i none).isSome := by
  simp only [isValid, buildColumn]
  by_cases hall : values.all Option.isSome
  · simp only [hall, if_true]
    have := List.all_eq_true.mp hall (values.getD i none) ?_
    · exact this.symm
    · rw [List.getD_eq_getElem?_getD, List.getElem?_eq_getElem hi]
      exact List.getElem_mem hi
  · rw [if_neg hall]
    show ((packBits (values.map Option.isSome)).getD (i / 8) 0).testBit (i % 8)
      = (values.getD i none).isSome
    rw [packBits_getBit (values.map Option.isSome) i (by simpa using hi)]
    rw [List.getD_eq_getElem?_getD, List.getElem?_map,
      List.getElem?_eq_getElem hi]
    rw [List.getD_eq_getElem?_getD, List.getElem?_eq_getElem hi]
    rfl

/-- Reading element `i` of a built column returns exactly the value appended
at position `i` (with `none` for nulls), provided the backing buffer stays
below the `uint32` offset range. -/
theorem columnValue_buildColumn (values : List (Option (List Nat))) (i : Nat)
    (hi : i < values.length)
    (hbuf : (buildBuf values).length < 2 ^ 32) :
    columnValue (buildColumn values) i = .ok (values.getD i none) := by
  have hcount : (buildColumn values).count = values.length := rfl
  rw [columnValue, hcount, if_pos hi, isValid_buildColumn values i hi]
  have hviews : (buildColumn values).views.getD i ⟨0, List.replicate 12 0⟩ =
      (encode (values.getD i none) 0 ((buildBuf (values.take i)).length)).1 := by
    simpa [buildColumn, Nat.zero_add] using buildViews_getD values 0 i hi
  cases hv : values.getD i none with
  | none =>
    simp [Option.isSome]
  | some v =>
    rw [hv] at hviews
    rw [show (some v).isSome = true from rfl, if_pos rfl, hviews]
    by_cases hlen : v.length ≤ 12
    · rw [decode_encode_inline v 0 _ _ hlen]
    · have hdecomp := buildBuf_decomp values i hi
      rw [hv] at hdecomp
      have happ : appendedBytes (some v) = v := by
        simp [appendedBytes, hlen]
      rw [happ] at hdecomp
      have hpre : (buildBuf (values.take i)).length < 2 ^ 32 := by
        have hsum : (buildBuf values).length =
            (buildBuf (values.take i) ++ v ++
              buildBuf (values.drop (i + 1))).length := by
          rw [← hdecomp]
        simp only [List.length_append] at hsum
        omega
      have hget : (buildColumn values).buffers.get? 0 =
          some (buildBuf (values.take i) ++ v ++
            buildBuf (values.drop (i + 1))) := by
        simp [buildColumn, ← hdecomp]
      rw [decode_encode_outline v (buildBuf (values.take i))
        (buildBuf (values.drop (i + 1))) 0 (buildColumn values).buffers
        (by omega) (by norm_num) hpre hget]

/-- C6: appending `None` reads back as absent, distinct from appending the
empty byte sequence which reads back as present-and-empty; both produce the
same length-0 zero-payload descriptor, so nullness lives in the bitmap, not
in the descriptor. -/
theorem c6_null_vs_empty (values : List (Option (List Nat))) (i : Nat)
    (hi : i < values.length)
    (hbuf : (buildBuf values).length < 2 ^ 32) :
    (values.getD i none = none →
      columnValue (buildColumn values) i = .ok none) ∧
    (values.getD i none = some [] →
      columnValue (buildColumn values) i = .ok (some [])) ∧
    (encode none 0 0).1 = (encode (some []) 0 0).1 ∧
    (buildColumn [none]).bitmap ≠ (buildColumn [some []]).bitmap := by
  refine ⟨?_, ?_, by decide, by decide⟩
  · intro h
    rw [columnValue_buildColumn values i hi hbuf, h]
  · intro h
    rw [columnValue_buildColumn values i hi hbuf, h]

theorem c6_null_vs_empty_witness :
    (0 : Nat) < ([none, some []] : List (Option (List Nat))).length ∧
    (buildBuf [none, some []]).length < 2 ^ 32 ∧
    ((([none, some []] : List (Option (List Nat))).getD 0 none = none →
        columnValue (buildColumn [none, some []]) 0 = .ok none) ∧
     (([none, some []] : List (Option (List Nat))).getD 0 none = some [] →
        columnValue (buildColumn [none, some []]) 0 = .ok (some [])) ∧
     (encode none 0 0).1 = (encode (some []) 0 0).1 ∧
     (buildColumn [none]).bitmap ≠ (buildColumn [some []]).bitmap) :=
  ⟨by decide, by decide, c6_null_vs_empty [none, some []] 0 (by decide) (by decide)⟩

/-! ## Container format (spec §4.4, §4.5, §4.6, §6) -/

/-- Modelled from the spec: §6 type tags exposed in the schema message. -/
inductive TypeTag where
  | binaryView
  | textView
  deriving DecidableEq, Repr

/-- Byte representation of a type tag in the schema message. -/
def tagByte : TypeTag → Nat
  | .binaryView => 0
  | .textView => 1

/-- Modelled from the spec: §4.4 a schema entry mapping a column name to a
type tag. -/
structure SchemaField where
  name : List Nat
  tag : TypeTag
  deriving DecidableEq, Repr

/-- Serialized schema entry: length-prefixed name followed by the tag byte. -/
def serializeField (f : SchemaField) : List Nat :=
  le32 f.name.length ++ f.name ++ [tagByte f.tag]

/-- Modelled from the spec: §4.4 schema message — column count then the
serialized name/type entries. -/
def serializeSchemaMsg (s : List SchemaField) : List Nat :=
  le32 s.length ++ (s.map serializeField).flatten

/-- Serialized view descriptor: `uint32` length plus the 12 payload bytes
(spec §3: a fixed 16-byte record). -/
def serializeView (d : ViewDescriptor) : List Nat :=
  le32 d.length ++ d.payload

/-- Modelled from the spec: §4.4 one column's section of a batch block — the
null bitmap (when present) aligned to 8 bytes, the view-descriptor array
aligned to 8 bytes, and each length-prefixed backing buffer aligned to
8 bytes, with a presence flag and counts so that the reader can walk the
block. -/
def serializeColumn (c : Column) : List Nat :=
  (match c.bitmap with
   | none => le32 0
   | some bm => le32 1 ++ le32 bm.length ++ pad8 bm) ++
  pad8 ((c.views.map serializeView).flatten) ++
  le32 c.buffers.length ++
  (c.buffers.map (fun b => le32 b.length ++ pad8 b)).flatten

/-- Element count shared by all columns of a batch (spec §3: all columns of
a batch share the same element count). -/
def blockCount (cols : List Column) : Nat :=
  (cols.head?.map Column.count).getD 0

/-- Modelled from the spec: §4.4 one batch block — the element count then
every column's section. -/
def serializeBlock (cols : List Column) : List Nat :=
  le32 (blockCount cols) ++ (cols.map serializeColumn).flatten

/-- The container magic bytes (ASCII "ARROW1"). -/
def MAGIC : List Nat := [65, 82, 82, 79, 87, 49]

/-- Absolute offset/length footer entries for a sequence of blocks laid out
consecutively from `off` (spec §4.4). -/
def blockEntries (off : Nat) : List (List Nat) → List (Nat × Nat)
  | [] => []
  | b :: rest => (off, b.length) :: blockEntries (off + b.length) rest

/-- Serialized footer: batch count, then offset/length of the schema message
and of every batch block (spec §4.4). -/
def serializeFooter (se : Nat × Nat) (es : List (Nat × Nat)) : List Nat :=
  le32 es.length ++ le32 se.1 ++ le32 se.2 ++
    (es.map (fun p => le32 p.1 ++ le32 p.2)).flatten

/-- Modelled from the spec: §4.4 `write(schema, sequence_of_batches)` — in
order: magic header, schema message, each batch block, the footer indexing
the schema message and every block, and the fixed trailer holding the footer
length and a repeated magic value. -/
def write (schema : List SchemaField) (batches : List (List Column)) :
    List Nat :=
  let sm := serializeSchemaMsg schema
  let blocks := batches.map serializeBlock
  let footer := serializeFooter (MAGIC.length, sm.length)
    (blockEntries (MAGIC.length + sm.length) blocks)
  MAGIC ++ sm ++ blocks.flatten ++ footer ++ le32 footer.length ++ MAGIC

/-- Modelled from the spec: §4.5 the container handle — the borrowed byte
region plus the footer's offset/length entries for the schema message and
each batch block. -/
structure Handle where
  region : List Nat
  schemaEntry : Nat × Nat
  entries : List (Nat × Nat)
  deriving DecidableEq, Repr

/-- Take exactly `k` bytes off the front of a region, failing with
`TruncatedFile` when fewer remain. -/
def takeE (k : Nat) (bs : List Nat) :
    Except ArrowError (List Nat × List Nat) :=
  if k ≤ bs.length then .ok (bs.take k, bs.drop k) else .error .TruncatedFile

/-- Parse `k` consecutive offset/length footer entries. -/
def parseEntries : Nat → List Nat → List (Nat × Nat)
  | 0, _ => []
  | k + 1, bs => (readLe32 bs, readLe32 (bs.drop 4)) :: parseEntries k (bs.drop 8)

/-- Modelled from the spec: §4.5 footer parsing — the batch count followed by
the schema entry and one entry per batch block. -/
def parseFooter (fb : List Nat) :
    Except ArrowError ((Nat × Nat) × List (Nat × Nat)) :=
  if fb.length = 12 + 8 * readLe32 fb then
    .ok ((readLe32 (fb.drop 4), readLe32 (fb.drop 8)),
      parseEntries (readLe32 fb) (fb.drop 12))
  else .error .TruncatedFile

/-- Modelled from the spec: §4.6 footer range validation — all block
offsets/lengths from the footer must lie within the overall byte region,
else `FooterRangeInvalid`. -/
def checkRanges (len : Nat) (es : List (Nat × Nat)) :
    Except ArrowError Unit :=
  if es.all (fun p => p.1 + p.2 ≤ len) then .ok () else .error .FooterRangeInvalid

/-- Minimum framing size: leading magic, footer-length field, trailing
magic. -/
def minFrame : Nat := 2 * MAGIC.length + 4

/-- Modelled from the spec: §4.5 `open(byte region)` — validates leading and
trailing magic, reads the trailer to locate the footer, parses the footer
into offset/length entries, and validates the footer ranges; fails with
`BadMagic` or `TruncatedFile` when the region is shorter than the minimum
framing size or the magics mismatch. -/
def openC (bs : List Nat) : Except ArrowError Handle :=
  if bs.length < minFrame then .error .TruncatedFile
  else if bs.take MAGIC.length ≠ MAGIC then .error .BadMagic
  else if bs.drop (bs.length - MAGIC.length) ≠ MAGIC then .error .BadMagic
  else
    let L := readLe32 (bs.drop (bs.length - MAGIC.length - 4))
    if bs.length < minFrame + L then .error .TruncatedFile
    else do
      let (se, es) ← parseFooter
        (sliceL bs (bs.length - MAGIC.length - 4 - L) L)
      checkRanges bs.length (se :: es)
      .ok ⟨bs, se, es⟩

/-- Parse `k` schema entries: length-prefixed name then tag byte. -/
def parseFields : Nat → List Nat →
    Except ArrowError (List SchemaField × List Nat)
  | 0, bs => .ok ([], bs)
  | k + 1, bs => do
    let (l4, bs) ← takeE 4 bs
    let (nm, bs) ← takeE (readLe32 l4) bs
    let (tb, bs) ← takeE 1 bs
    let tag : TypeTag ←
      if tb = [0] then .ok .binaryView
      else if tb = [1] then .ok .textView
      else .error .InvalidEncoding
    let (fs, bs) ← parseFields k bs
    .ok (⟨nm, tag⟩ :: fs, bs)

/-- Modelled from the spec: §4.5 `schema()` — parse the schema message into
the column name/type list. -/
def parseSchemaMsg (bs : List Nat) : Except ArrowError (List SchemaField) := do
  let (c4, bs) ← takeE 4 bs
  let (fs, _) ← parseFields (readLe32 c4) bs
  .ok fs

/-- Parse `k` consecutive 16-byte view descriptors. -/
def parseViews : Nat → List Nat → List ViewDescriptor
  | 0, _ => []
  | k + 1, bs => ⟨readLe32 bs, sliceL bs 4 12⟩ :: parseViews k (bs.drop 16)

/-- Parse `k` length-prefixed, alignment-padded backing buffers. -/
def parseBuffers : Nat → List Nat →
    Except ArrowError (List (List Nat) × List Nat)
  | 0, bs => .ok ([], bs)
  | k + 1, bs => do
    let (l4, bs) ← takeE 4 bs
    let (b, bs) ← takeE (readLe32 l4) bs
    let (_, bs) ← takeE (padLen (readLe32 l4)) bs
    let (rest, bs) ← parseBuffers k bs
    .ok (b :: rest, bs)

/-- Modelled from the spec: §4.6 bitmap length validation — a present null
bitmap must have exactly `ceil(element_count/8)` bytes, else
`BitmapLengthMismatch`. -/
def checkBitmapLen (n bl : Nat) : Except ArrowError Unit :=
  if bl = (n + 7) / 8 then .ok () else .error .BitmapLengthMismatch

/-- Modelled from the spec: §4.6 per-view validation — an out-of-line
descriptor must reference a buffer index strictly below the column's buffer
count (`BufferIndexOutOfRange`) and its declared length must be
reconstructible within that buffer's bounds (`MalformedView`). -/
def checkView (d : ViewDescriptor) (bufs : List (List Nat)) :
    Except ArrowError Unit :=
  if d.length ≤ 12 then .ok ()
  else
    match bufs.get? (viewIdx d) with
    | none => .error .BufferIndexOutOfRange
    | some buf =>
      if viewOff d + d.length ≤ buf.length then .ok ()
      else .error .MalformedView

/-- Modelled from the spec: §4.6 the validator runs over every view
descriptor of a column during batch construction. -/
def validateViews (views : List ViewDescriptor) (bufs : List (List Nat)) :
    Except ArrowError Unit :=
  match views with
  | [] => .ok ()
  | d :: rest => do
    checkView d bufs
    validateViews rest bufs

/-- Modelled from the spec: §4.4/§4.5/§4.6 parsing the optional null-bitmap
section of one column — the presence flag, then for a present bitmap its
validated byte length, the bytes and the alignment padding. -/
def parseBitmap (n : Nat) (bs : List Nat) :
    Except ArrowError (Option (List Nat) × List Nat) := do
  let (f4, bs) ← takeE 4 bs
  if readLe32 f4 = 0 then
    .ok (none, bs)
  else do
    let (l4, bs) ← takeE 4 bs
    checkBitmapLen n (readLe32 l4)
    let (bmBytes, bs) ← takeE (readLe32 l4) bs
    let (_, bs) ← takeE (padLen (readLe32 l4)) bs
    .ok (some bmBytes, bs)

/-- Modelled from the spec: §4.4/§4.5/§4.6 parsing one column's section of a
batch block, running the validator before the column is produced. -/
def parseColumn (n : Nat) (bs : List Nat) :
    Except ArrowError (Column × List Nat) := do
  let (bm, bs) ← parseBitmap n bs
  let (viewBytes, bs) ← takeE (16 * n) bs
  let views := parseViews n viewBytes
  let (_, bs) ← takeE (padLen (16 * n)) bs
  let (nb4, bs) ← takeE 4 bs
  let (bufs, bs) ← parseBuffers (readLe32 nb4) bs
  validateViews views bufs
  .ok (⟨n, bm, views, bufs⟩, bs)

/-- Parse the sections of `k` columns sharing element count `n`. -/
def parseColumns (n : Nat) : Nat → List Nat →
    Except ArrowError (List Column × List Nat)
  | 0, bs => .ok ([], bs)
  | k + 1, bs => do
    let (c, bs) ← parseColumn n bs
    let (cs, bs) ← parseColumns n k bs
    .ok (c :: cs, bs)

/-- Modelled from the spec: §4.5 batch block reconstruction — element count
then one column per schema entry. -/
def parseBlock (numCols : Nat) (bs : List Nat) :
    Except ArrowError (List Column) := do
  let (n4, bs1) ← takeE 4 bs
  let (cols, _) ← parseColumns (readLe32 n4) numCols bs1
  .ok cols

/-- Modelled from the spec: §4.5 `batch(i)` — fails with `IndexOutOfRange`
beyond the footer's batch count, otherwise reconstructs the block's columns
from the byte region. -/
def batchOf (h : Handle) (i : Nat) : Except ArrowError (List Column) :=
  match h.entries.get? i with
  | none => .error .IndexOutOfRange
  | some e => do
    let fields ← parseSchemaMsg (sliceL h.region h.schemaEntry.1 h.schemaEntry.2)
    parseBlock fields.length (sliceL h.region e.1 e.2)

/-- Open a container and read batch `i` in one step. -/
def containerBatch (bs : List Nat) (i : Nat) :
    Except ArrowError (List Column) := do
  let h ← openC bs
  batchOf h i

/-! ## Round-trip lemmas for the parsers -/

theorem ok_bind {α β : Type} (x : α) (f : α → Except ArrowError β) :
    Except.ok x >>= f = f x := rfl

theorem takeE_exact (k : Nat) (a r : List Nat) (h : a.length = k) :
    takeE k (a ++ r) = .ok (a, r) := by
  subst h
  simp [takeE, List.take_left, List.drop_left]

theorem takeE_one (x : Nat) (rest : List Nat) :
    takeE 1 (x :: rest) = .ok ([x], rest) := by
  simp [takeE]

theorem parseFields_roundtrip (fs : List SchemaField) (r : List Nat)
    (h : ∀ f ∈ fs, f.name.length < 2 ^ 32) :
    parseFields fs.length ((fs.map serializeField).flatten ++ r) =
      .ok (fs, r) := by
  induction fs generalizing r with
  | nil => simp [parseFields]
  | cons f fs ih =>
    have hf := h f (by simp)
    have ih' := ih r (fun g hg => h g (by simp [hg]))
    obtain ⟨nm, tg⟩ := f
    simp only [SchemaField.name] at hf
    cases tg <;>
      simp [parseFields, serializeField, takeE_exact, le32_length, ok_bind,
        readLe32_le32 _ hf, tagByte, ih', takeE_one]

theorem parseSchemaMsg_roundtrip (s : List SchemaField)
    (hc : s.length < 2 ^ 32) (h : ∀ f ∈ s, f.name.length < 2 ^ 32) :
    parseSchemaMsg (serializeSchemaMsg s) = .ok s := by
  have hp := parseFields_roundtrip s [] h
  rw [List.append_nil] at hp
  simp [parseSchemaMsg, serializeSchemaMsg, takeE_exact, le32_length, ok_bind,
    readLe32_le32 _ hc, hp]

theorem parseViews_roundtrip (vs : List ViewDescriptor) (r : List Nat)
    (h : ∀ d ∈ vs, d.payload.length = 12 ∧ d.length < 2 ^ 32) :
    parseViews vs.length ((vs.map serializeView).flatten ++ r) = vs := by
  induction vs generalizing r with
  | nil => simp [parseViews]
  | cons d vs ih =>
    obtain ⟨hp, hl⟩ := h d (by simp)
    have ih' := ih r (fun g hg => h g (by simp [hg]))
    have hslice : sliceL (le32 d.length ++ (d.payload ++
        ((vs.map serializeView).flatten ++ r))) 4 12 = d.payload := by
      rw [sliceL, drop_append_of_length (le32 d.length) _ 4 (le32_length _)]
      exact take_append_of_length d.payload _ 12 hp
    have hdrop : (le32 d.length ++ (d.payload ++
        ((vs.map serializeView).flatten ++ r))).drop 16 =
        (vs.map serializeView).flatten ++ r := by
      rw [← List.append_assoc]
      exact drop_append_of_length _ _ 16 (by simp [le32_length, hp])
    simp only [List.map_cons, List.flatten_cons, List.length_cons, parseViews,
      serializeView, List.append_assoc]
    rw [hslice, hdrop, ih', readLe32_le32_append d.length _ hl]

theorem parseBuffers_roundtrip (bufs : List (List Nat)) (r : List Nat)
    (h : ∀ b ∈ bufs, b.length < 2 ^ 32) :
    parseBuffers bufs.length
      ((bufs.map (fun b => le32 b.length ++ pad8 b)).flatten ++ r) =
      .ok (bufs, r) := by
  induction bufs generalizing r with
  | nil => simp [parseBuffers]
  | cons b bufs ih =>
    have hb := h b (by simp)
    have ih' := ih r (fun g hg => h g (by simp [hg]))
    simp only [pad8] at ih'
    simp [parseBuffers, pad8, takeE_exact, le32_length, ok_bind,
      readLe32_le32 _ hb, List.length_replicate, ih']

/-- Structural well-formedness of a column as serialized: descriptor array
in step with the count, 12-byte payloads, `uint32`-range sizes, a
`ceil(count/8)`-byte bitmap when present, and a validator-clean view array. -/
def ColumnWf (c : Column) : Prop :=
  c.views.length = c.count ∧
  (∀ d ∈ c.views, d.payload.length = 12 ∧ d.length < 2 ^ 32) ∧
  (∀ bm, c.bitmap = some bm → bm.length = (c.count + 7) / 8 ∧
    bm.length < 2 ^ 32) ∧
  c.buffers.length < 2 ^ 32 ∧
  (∀ b ∈ c.buffers, b.length < 2 ^ 32) ∧
  validateViews c.views c.buffers = .ok ()

theorem viewsFlat_length (vs : List ViewDescriptor)
    (h : ∀ d ∈ vs, d.payload.length = 12) :
    ((vs.map serializeView).flatten).length = 16 * vs.length := by
  induction vs with
  | nil => simp
  | cons d vs ih =>
    have hd := h d (by simp)
    simp only [List.map_cons, List.flatten_cons, List.length_append,
      List.length_cons, serializeView]
    rw [ih (fun g hg => h g (by simp [hg]))]
    simp [le32_length, hd]
    ring

theorem parseColumn_roundtrip (c : Column) (r : List Nat) (hwf : ColumnWf c) :
    parseColumn c.count (serializeColumn c ++ r) = .ok (c, r) := by
  obtain ⟨hvl, hviews, hbm, hbufc, hbufs, hvalid⟩ := hwf
  obtain ⟨n, bm, views, bufs⟩ := c
  simp only at hvl hviews hbm hbufc hbufs hvalid
  have hflat : ((views.map serializeView).flatten).length = 16 * n := by
    rw [viewsFlat_length views (fun d hd => (hviews d hd).1), hvl]
  have hpv : parseViews n ((views.map serializeView).flatten) = views := by
    have := parseViews_roundtrip views [] hviews
    rw [List.append_nil, hvl] at this
    exact this
  have hpb := parseBuffers_roundtrip bufs r hbufs
  simp only [pad8] at hpb
  cases bm with
  | none =>
    simp only [serializeColumn, pad8, hflat]
    simp [parseColumn, parseBitmap, takeE_exact, le32_length, ok_bind,
      readLe32_le32, List.length_replicate, hflat, hpv, hpb,
      readLe32_le32 _ hbufc, hvalid]
  | some bmv =>
    obtain ⟨hbl, hbl32⟩ := hbm bmv rfl
    simp only [serializeColumn, pad8, hflat]
    have hcbl : checkBitmapLen n bmv.length = .ok () := by
      simp [checkBitmapLen, hbl]
    have hone : readLe32 (le32 1) = 1 := by decide
    simp [parseColumn, parseBitmap, takeE_exact, le32_length, ok_bind,
      readLe32_le32 _ hbl32, List.length_replicate, hflat, hpv, hpb,
      readLe32_le32 _ hbufc, hvalid, hcbl, hone]

theorem parseColumns_roundtrip (cols : List Column) (n : Nat) (r : List Nat)
    (hwf : ∀ c ∈ cols, ColumnWf c) (hn : ∀ c ∈ cols, c.count = n) :
    parseColumns n cols.length ((cols.map serializeColumn).flatten ++ r) =
      .ok (cols, r) := by
  induction cols generalizing r with
  | nil => simp [parseColumns]
  | cons c cols ih =>
    have hc := hwf c (by simp)
    have hcn := hn c (by simp)
    have hpc := parseColumn_roundtrip c ((cols.map serializeColumn).flatten ++ r) hc
    rw [hcn] at hpc
    have ih' := ih r (fun g hg => hwf g (by simp [hg]))
      (fun g hg => hn g (by simp [hg]))
    simp [parseColumns, List.append_assoc, hpc, ok_bind, ih']

theorem parseBlock_roundtrip (cols : List Column) (n : Nat)
    (hwf : ∀ c ∈ cols, ColumnWf c) (hn : ∀ c ∈ cols, c.count = n)
    (hbc : blockCount cols = n) (hn32 : n < 2 ^ 32) :
    parseBlock cols.length (serializeBlock cols) = .ok cols := by
  have hpc := parseColumns_roundtrip cols n [] hwf hn
  rw [List.append_nil] at hpc
  simp [parseBlock, serializeBlock, hbc, takeE_exact, le32_length, ok_bind,
    readLe32_le32 _ hn32, hpc]

theorem error_bind {α β : Type} (e : ArrowError)
    (f : α → Except ArrowError β) : (Except.error e >>= f) = .error e := rfl

theorem validateViews_ok_iff (vs : List ViewDescriptor)
    (bufs : List (List Nat)) :
    validateViews vs bufs = .ok () ↔ ∀ d ∈ vs, checkView d bufs = .ok () := by
  induction vs with
  | nil => simp [validateViews]
  | cons d vs ih =>
    constructor
    · intro h
      cases hc : checkView d bufs with
      | error e =>
        simp only [validateViews, hc, error_bind] at h
        exact absurd h (by simp)
      | ok u =>
        cases u
        simp only [validateViews, hc, ok_bind] at h
        intro g hg
        rcases List.mem_cons.mp hg with rfl | hg'
        · exact hc
        · exact (ih.mp h) g hg'
    · intro h
      have hd := h d (by simp)
      simp only [validateViews, hd, ok_bind]
      exact ih.mpr (fun g hg => h g (by simp [hg]))

theorem buildViews_mem (values : List (Option (List Nat))) (off : Nat)
    (hv : ∀ v, some v ∈ values → v.length < 2 ^ 32) :
    ∀ d ∈ buildViews values off, d.payload.length = 12 ∧ d.length < 2 ^ 32 := by
  induction values generalizing off with
  | nil => simp [buildViews]
  | cons v rest ih =>
    intro d hd
    rcases List.mem_cons.mp hd with rfl | hd'
    · cases v with
      | none => simp [encode]
      | some w =>
        by_cases hw : w.length ≤ 12
        · rw [encode_inline w 0 off hw]
          constructor
          · simp [List.length_append, List.length_replicate]; omega
          · show w.length < 2 ^ 32
            omega
        · rw [encode_outline w 0 off (by omega)]
          constructor
          · simp [List.length_append, List.length_take, le32_length]
            omega
          · exact hv w (by simp)
    · exact ih _ (fun w hw => hv w (by simp [hw])) d hd'

theorem mem_buildViews_checkView (values : List (Option (List Nat)))
    (hbuf : (buildBuf values).length < 2 ^ 32) :
    ∀ d ∈ buildViews values 0, checkView d [buildBuf values] = .ok () := by
  intro d hd
  obtain ⟨i, hi, hget⟩ := List.getElem_of_mem hd
  rw [buildViews_length] at hi
  have hgetD : (buildViews values 0).getD i ⟨0, List.replicate 12 0⟩ = d := by
    rw [List.getD_eq_getElem?_getD,
      List.getElem?_eq_getElem (by rw [buildViews_length]; exact hi), hget]
    rfl
  rw [buildViews_getD values 0 i hi, Nat.zero_add] at hgetD
  subst hgetD
  cases hv : values.getD i none with
  | none => simp [encode, checkView]
  | some w =>
    by_cases hw : w.length ≤ 12
    · rw [encode_inline w 0 _ hw]
      simp [checkView, hw]
    · have hdecomp := buildBuf_decomp values i hi
      rw [hv] at hdecomp
      have happ : appendedBytes (some w) = w := by
        simp [appendedBytes, hw]
      rw [happ] at hdecomp
      have hsum : (buildBuf values).length =
          (buildBuf (values.take i)).length + w.length +
            (buildBuf (values.drop (i + 1))).length := by
        rw [hdecomp]; simp [List.length_append]; omega
      have hpre : (buildBuf (values.take i)).length < 2 ^ 32 := by omega
      have hI := viewIdx_encode_outline w 0 (buildBuf (values.take i)).length
        (by omega) (by norm_num)
      have hO := viewOff_encode_outline w 0 (buildBuf (values.take i)).length
        (by omega) hpre
      have hlen : (encode (some w) 0 (buildBuf (values.take i)).length).1.length
          = w.length := by
        rw [encode_outline w 0 _ (by omega)]
      rw [checkView, hlen, if_neg (by omega), hI, hO]
      show (match [buildBuf values].get? 0 with
        | none => Except.error ArrowError.BufferIndexOutOfRange
        | some buf =>
          if (buildBuf (values.take i)).length + w.length ≤ buf.length then
            Except.ok () else Except.error ArrowError.MalformedView) = Except.ok ()
      simp only [List.get?_eq_getElem?, List.getElem?_cons_zero]
      rw [if_pos (by omega)]

theorem buildColumn_wf (values : List (Option (List Nat)))
    (hn : values.length < 2 ^ 32)
    (hbuf : (buildBuf values).length < 2 ^ 32)
    (hv : ∀ v, some v ∈ values → v.length < 2 ^ 32) :
    ColumnWf (buildColumn values) := by
  refine ⟨?_, ?_, ?_, ?_, ?_, ?_⟩
  · show (buildViews values 0).length = values.length
    exact buildViews_length values 0
  · exact buildViews_mem values 0 hv
  · intro bm hbm
    show bm.length = (values.length + 7) / 8 ∧ bm.length < 2 ^ 32
    simp only [buildColumn] at hbm
    by_cases hall : values.all Option.isSome
    · simp [hall] at hbm
    · rw [if_neg hall] at hbm
      injection hbm with hbm'
      subst hbm'
      rw [packBits_length]
      simp only [List.length_map]
      exact ⟨trivial, by omega⟩
  · show ([buildBuf values] : List (List Nat)).length < 2 ^ 32
    norm_num
  · intro b hb
    show b.length < 2 ^ 32
    rcases List.mem_singleton.mp hb with rfl
    exact hbuf
  · show validateViews (buildViews values 0) [buildBuf values] = .ok ()
    exact (validateViews_ok_iff _ _).mpr (mem_buildViews_checkView values hbuf)

theorem entriesFlat_length (es : List (Nat × Nat)) :
    ((es.map (fun p => le32 p.1 ++ le32 p.2)).flatten).length = 8 * es.length := by
  induction es with
  | nil => simp
  | cons p es ih =>
    simp only [List.map_cons, List.flatten_cons, List.length_append,
      List.length_cons, ih, le32_length]
    ring

theorem serializeFooter_length (se : Nat × Nat) (es : List (Nat × Nat)) :
    (serializeFooter se es).length = 12 + 8 * es.length := by
  rw [serializeFooter, List.length_append, List.length_append,
    List.length_append, entriesFlat_length, le32_length, le32_length,
    le32_length]

theorem parseEntries_roundtrip (es : List (Nat × Nat)) (r : List Nat)
    (h : ∀ p ∈ es, p.1 < 2 ^ 32 ∧ p.2 < 2 ^ 32) :
    parseEntries es.length
      ((es.map (fun p => le32 p.1 ++ le32 p.2)).flatten ++ r) = es := by
  induction es generalizing r with
  | nil => simp [parseEntries]
  | cons p es ih =>
    obtain ⟨h1, h2⟩ := h p (by simp)
    have ih' := ih r (fun q hq => h q (by simp [hq]))
    have hd4 : ((le32 p.1 ++ le32 p.2) ++
        ((es.map (fun p => le32 p.1 ++ le32 p.2)).flatten ++ r)).drop 4 =
        le32 p.2 ++ ((es.map (fun p => le32 p.1 ++ le32 p.2)).flatten ++ r) := by
      rw [List.append_assoc]
      exact drop_append_of_length _ _ 4 (le32_length _)
    have hd8 : ((le32 p.1 ++ le32 p.2) ++
        ((es.map (fun p => le32 p.1 ++ le32 p.2)).flatten ++ r)).drop 8 =
        (es.map (fun p => le32 p.1 ++ le32 p.2)).flatten ++ r :=
      drop_append_of_length _ _ 8 (by simp [le32_length])
    simp only [List.map_cons, List.flatten_cons, List.length_cons, parseEntries,
      List.append_assoc]
    rw [← List.append_assoc (le32 p.1) (le32 p.2)] at *
    rw [hd4, hd8, ih']
    rw [List.append_assoc, readLe32_le32_append _ _ h1,
      readLe32_le32_append _ _ h2]

theorem parseFooter_roundtrip (se : Nat × Nat) (es : List (Nat × Nat))
    (hse1 : se.1 < 2 ^ 32) (hse2 : se.2 < 2 ^ 32) (hc : es.length < 2 ^ 32)
    (h : ∀ p ∈ es, p.1 < 2 ^ 32 ∧ p.2 < 2 ^ 32) :
    parseFooter (serializeFooter se es) = .ok (se, es) := by
  have hpe := parseEntries_roundtrip es [] h
  rw [List.append_nil] at hpe
  have hr0 : readLe32 (serializeFooter se es) = es.length := by
    rw [serializeFooter, List.append_assoc, List.append_assoc]
    exact readLe32_le32_append _ _ hc
  have hd4 : (serializeFooter se es).drop 4 =
      le32 se.1 ++ (le32 se.2 ++
        (es.map (fun p => le32 p.1 ++ le32 p.2)).flatten) := by
    rw [serializeFooter, List.append_assoc, List.append_assoc]
    exact drop_append_of_length _ _ 4 (le32_length _)
  have hd8 : (serializeFooter se es).drop 8 =
      le32 se.2 ++ (es.map (fun p => le32 p.1 ++ le32 p.2)).flatten := by
    rw [serializeFooter, List.append_assoc, List.append_assoc,
      ← List.append_assoc (le32 es.length)]
    exact drop_append_of_length _ _ 8 (by simp [le32_length])
  have hd12 : (serializeFooter se es).drop 12 =
      (es.map (fun p => le32 p.1 ++ le32 p.2)).flatten := by
    rw [serializeFooter, List.append_assoc, List.append_assoc,
      ← List.append_assoc (le32 es.length), ← List.append_assoc]
    exact drop_append_of_length _ _ 12 (by simp [le32_length])
  rw [parseFooter, hr0, serializeFooter_length, if_pos rfl, hd4, hd8, hd12]
  rw [readLe32_le32_append _ _ hse1, readLe32_le32_append _ _ hse2, hpe]

theorem blockEntries_length (off : Nat) (bl : List (List Nat)) :
    (blockEntries off bl).length = bl.length := by
  induction bl generalizing off with
  | nil => rfl
  | cons b bl ih => simp [blockEntries, ih]

theorem blockEntries_bound (off : Nat) (bl : List (List Nat)) :
    ∀ p ∈ blockEntries off bl, off ≤ p.1 ∧ p.1 + p.2 ≤ off + bl.flatten.length := by
  induction bl generalizing off with
  | nil => simp [blockEntries]
  | cons b bl ih =>
    intro p hp
    rcases List.mem_cons.mp hp with rfl | hp'
    · simp [List.length_append]
    · have := ih (off + b.length) p hp'
      simp only [List.flatten_cons, List.length_append]
      omega

theorem openC_frame (sm bf f : List Nat) (se : Nat × Nat)
    (es : List (Nat × Nat)) (hf : f = serializeFooter se es)
    (hse1 : se.1 < 2 ^ 32) (hse2 : se.2 < 2 ^ 32)
    (h32 : (MAGIC ++ sm ++ bf ++ f ++ le32 f.length ++ MAGIC).length < 2 ^ 32)
    (hrange : ∀ p ∈ se :: es,
      p.1 + p.2 ≤ (MAGIC ++ sm ++ bf ++ f ++ le32 f.length ++ MAGIC).length) :
    openC (MAGIC ++ sm ++ bf ++ f ++ le32 f.length ++ MAGIC) =
      .ok ⟨MAGIC ++ sm ++ bf ++ f ++ le32 f.length ++ MAGIC, se, es⟩ := by
  set s : List Nat := MAGIC ++ sm ++ bf ++ f ++ le32 f.length ++ MAGIC
    with hsdef
  have hlen : s.length = 6 + sm.length + bf.length + f.length + 4 + 6 := by
    rw [hsdef]
    simp only [List.length_append, le32_length]
    norm_num [MAGIC]
  have hfl : f.length = 12 + 8 * es.length := by
    rw [hf, serializeFooter_length]
  have hfl32 : f.length < 2 ^ 32 := by omega
  have hesc : es.length < 2 ^ 32 := by omega
  have htake : s.take MAGIC.length = MAGIC := by
    rw [hsdef, List.append_assoc MAGIC, List.append_assoc MAGIC,
      List.append_assoc MAGIC, List.append_assoc MAGIC]
    exact take_append_of_length _ _ _ rfl
  have hdropm : s.drop (s.length - MAGIC.length) = MAGIC := by
    rw [hsdef]
    refine drop_append_of_length _ _ _ ?_
    have : MAGIC.length = 6 := rfl
    simp only [List.length_append, le32_length, ← hsdef, hlen, this]
    omega
  have hB : (MAGIC ++ sm ++ bf ++ f).length = s.length - MAGIC.length - 4 := by
    have : MAGIC.length = 6 := rfl
    simp only [List.length_append, hlen, this]
    omega
  have hL : readLe32 (s.drop (s.length - MAGIC.length - 4)) = f.length := by
    have h1 : s.drop (s.length - MAGIC.length - 4) = le32 f.length ++ MAGIC := by
      rw [← hB, hsdef,
        List.append_assoc (MAGIC ++ sm ++ bf ++ f) (le32 f.length) MAGIC]
      exact List.drop_left _ _
    rw [h1]
    exact readLe32_le32_append _ _ hfl32
  have hC : (MAGIC ++ sm ++ bf).length =
      s.length - MAGIC.length - 4 - f.length := by
    have : MAGIC.length = 6 := rfl
    simp only [List.length_append, hlen, this]
    omega
  have hslice : sliceL s (s.length - MAGIC.length - 4 - f.length) f.length
      = f := by
    rw [sliceL, ← hC, hsdef,
      List.append_assoc (MAGIC ++ sm ++ bf ++ f) (le32 f.length) MAGIC,
      List.append_assoc (MAGIC ++ sm ++ bf) f (le32 f.length ++ MAGIC),
      List.drop_left]
    exact take_append_of_length _ _ _ rfl
  have hc0 : ¬ s.length < minFrame := by
    rw [minFrame]
    have : MAGIC.length = 6 := rfl
    omega
  have hc2 : ¬ s.length < minFrame + f.length := by
    rw [minFrame]
    have : MAGIC.length = 6 := rfl
    omega
  have hpf : parseFooter f = .ok (se, es) := by
    rw [hf]
    exact parseFooter_roundtrip se es hse1 hse2 hesc
      (fun p hp => ⟨by have := hrange p (by simp [hp]); omega,
        by have := hrange p (by simp [hp]); omega⟩)
  have hcr : checkRanges s.length (se :: es) = .ok () := by
    rw [checkRanges, if_pos]
    rw [List.all_eq_true]
    intro p hp
    simpa using hrange p hp
  simp only [openC]
  rw [if_neg hc0, if_neg (not_not_intro htake), if_neg (not_not_intro hdropm)]
  simp only [hL]
  rw [if_neg hc2, hslice]
  simp only [hpf, ok_bind, hcr]

theorem openC_write (schema : List SchemaField) (batches : List (List Column))
    (h32 : (write schema batches).length < 2 ^ 32) :
    openC (write schema batches) = .ok
      ⟨write schema batches,
        (MAGIC.length, (serializeSchemaMsg schema).length),
        blockEntries (MAGIC.length + (serializeSchemaMsg schema).length)
          (batches.map serializeBlock)⟩ := by
  have hw : write schema batches =
      MAGIC ++ serializeSchemaMsg schema ++
        (batches.map serializeBlock).flatten ++
        serializeFooter (MAGIC.length, (serializeSchemaMsg schema).length)
          (blockEntries (MAGIC.length + (serializeSchemaMsg schema).length)
            (batches.map serializeBlock)) ++
        le32 (serializeFooter (MAGIC.length,
            (serializeSchemaMsg schema).length)
          (blockEntries (MAGIC.length + (serializeSchemaMsg schema).length)
            (batches.map serializeBlock))).length ++ MAGIC := rfl
  rw [hw] at h32 ⊢
  refine openC_frame _ _ _ _ _ rfl (by norm_num [MAGIC]) ?_ h32 ?_
  · simp only [List.length_append] at h32
    omega
  · intro p hp
    rcases List.mem_cons.mp hp with rfl | hp'
    · simp only [List.length_append]
      omega
    · have := blockEntries_bound
        (MAGIC.length + (serializeSchemaMsg schema).length)
        (batches.map serializeBlock) p hp'
      simp only [List.length_append]
      omega

theorem write_schema_slice (schema : List SchemaField)
    (batches : List (List Column)) :
    sliceL (write schema batches) MAGIC.length
      (serializeSchemaMsg schema).length = serializeSchemaMsg schema := by
  have hw : write schema batches =
      MAGIC ++ (serializeSchemaMsg schema ++
        ((batches.map serializeBlock).flatten ++
        (serializeFooter (MAGIC.length, (serializeSchemaMsg schema).length)
          (blockEntries (MAGIC.length + (serializeSchemaMsg schema).length)
            (batches.map serializeBlock)) ++
        (le32 (serializeFooter (MAGIC.length,
            (serializeSchemaMsg schema).length)
          (blockEntries (MAGIC.length + (serializeSchemaMsg schema).length)
            (batches.map serializeBlock))).length ++ MAGIC)))) := by
    simp [write, List.append_assoc]
  rw [hw, sliceL, List.drop_left]
  exact List.take_left _ _

theorem write_block_slice_single (schema : List SchemaField)
    (cols : List Column) :
    sliceL (write schema [cols])
      (MAGIC.length + (serializeSchemaMsg schema).length)
      (serializeBlock cols).length = serializeBlock cols := by
  have hw : write schema [cols] =
      (MAGIC ++ serializeSchemaMsg schema) ++
        (serializeBlock cols ++
        (serializeFooter (MAGIC.length, (serializeSchemaMsg schema).length)
          (blockEntries (MAGIC.length + (serializeSchemaMsg schema).length)
            [serializeBlock cols]) ++
        (le32 (serializeFooter (MAGIC.length,
            (serializeSchemaMsg schema).length)
          (blockEntries (MAGIC.length + (serializeSchemaMsg schema).length)
            [serializeBlock cols])).length ++ MAGIC))) := by
    simp [write, List.append_assoc]
  rw [hw, sliceL,
    drop_append_of_length _ _ _ (by rw [List.length_append])]
  exact List.take_left _ _

/-- C1: writing a batch of columns built from any mix of null, empty, inline
and out-of-line values into a container and reopening it reproduces every
value exactly and in order: `open(write(schema, [batch]))` yields a handle
whose batch 0 parses back to exactly the built columns, and reading any
element of any column returns the original optional value. Size hypotheses
bound every `uint32` field of the format. -/
theorem c1_write_read_roundtrip (schema : List SchemaField)
    (batch : List (List (Option (List Nat)))) (n : Nat)
    (hcols : schema.length = batch.length)
    (hne : batch ≠ [])
    (hn : ∀ col ∈ batch, col.length = n)
    (hn32 : n < 2 ^ 32)
    (hbufs : ∀ col ∈ batch, (buildBuf col).length < 2 ^ 32)
    (hvals : ∀ col ∈ batch,
      col.all (fun o => (o.getD []).length < 2 ^ 32) = true)
    (hs32 : schema.length < 2 ^ 32)
    (hnames : ∀ f ∈ schema, f.name.length < 2 ^ 32)
    (h32 : (write schema [batch.map buildColumn]).length < 2 ^ 32) :
    ∃ h, openC (write schema [batch.map buildColumn]) = .ok h ∧
      batchOf h 0 = .ok (batch.map buildColumn) ∧
      ∀ col ∈ batch, ∀ i, i < n →
        columnValue (buildColumn col) i = .ok (col.getD i none) := by
  have hvals' : ∀ col ∈ batch, ∀ v, some v ∈ col → v.length < 2 ^ 32 := by
    intro col hcol v hv
    have := List.all_eq_true.mp (hvals col hcol) (some v) hv
    simpa using this
  have hcolwf : ∀ c ∈ batch.map buildColumn, ColumnWf c := by
    intro c hc
    obtain ⟨col, hcol, rfl⟩ := List.mem_map.mp hc
    refine buildColumn_wf col ?_ (hbufs col hcol) (hvals' col hcol)
    rw [hn col hcol]
    exact hn32
  have hcounts : ∀ c ∈ batch.map buildColumn, c.count = n := by
    intro c hc
    obtain ⟨col, hcol, rfl⟩ := List.mem_map.mp hc
    exact hn col hcol
  have hbc : blockCount (batch.map buildColumn) = n := by
    obtain ⟨c, cs, rfl⟩ := List.exists_cons_of_ne_nil hne
    show (buildColumn c).count = n
    exact hn c (by simp)
  have hpb := parseBlock_roundtrip (batch.map buildColumn) n hcolwf hcounts
    hbc hn32
  rw [List.length_map, ← hcols] at hpb
  have hps := parseSchemaMsg_roundtrip schema hs32 hnames
  have hopen := openC_write schema [batch.map buildColumn] h32
  refine ⟨_, hopen, ?_, ?_⟩
  · have hentries : blockEntries
        (MAGIC.length + (serializeSchemaMsg schema).length)
        ([batch.map buildColumn].map serializeBlock) =
        [(MAGIC.length + (serializeSchemaMsg schema).length,
          (serializeBlock (batch.map buildColumn)).length)] := by
      simp [blockEntries]
    rw [batchOf]
    simp only [hentries, List.get?_eq_getElem?, List.getElem?_cons_zero]
    rw [write_schema_slice, hps, ok_bind]
    rw [write_block_slice_single, hpb]
  · intro col hcol i hi
    refine columnValue_buildColumn col i ?_ (hbufs col hcol)
    rw [hn col hcol]
    exact hi

/-- Concrete fixture for the round-trip witness: one column with an empty,
an inline, a null, and an out-of-line value. -/
def c1batch : List (List (Option (List Nat))) :=
  [[some [], some [1, 2, 3], none, some (List.replicate 13 7)]]

/-- Concrete one-column schema for the round-trip witness. -/
def c1schema : List SchemaField := [⟨[99], TypeTag.binaryView⟩]

theorem c1_write_read_roundtrip_witness :
    c1schema.length = c1batch.length ∧ c1batch ≠ [] ∧
    (∀ col ∈ c1batch, col.length = 4) ∧ (4 : Nat) < 2 ^ 32 ∧
    (∀ col ∈ c1batch, (buildBuf col).length < 2 ^ 32) ∧
    (∀ col ∈ c1batch,
      col.all (fun o => (o.getD []).length < 2 ^ 32) = true) ∧
    c1schema.length < 2 ^ 32 ∧
    (∀ f ∈ c1schema, f.name.length < 2 ^ 32) ∧
    (write c1schema [c1batch.map buildColumn]).length < 2 ^ 32 ∧
    (∃ h, openC (write c1schema [c1batch.map buildColumn]) = .ok h ∧
      batchOf h 0 = .ok (c1batch.map buildColumn) ∧
      ∀ col ∈ c1batch, ∀ i, i < 4 →
        columnValue (buildColumn col) i = .ok (col.getD i none)) :=
  ⟨by decide, by decide, by decide, by decide, by decide, by decide, by decide,
   by decide, by decide,
   c1_write_read_roundtrip c1schema c1batch 4 (by decide) (by decide)
     (by decide) (by decide) (by decide) (by decide) (by decide) (by decide)
     (by decide)⟩

/-! ## Concrete scenarios from the spec and the fixture script -/

/-- The spec §8 concrete scenario values: empty, two inline values, one
out-of-line value, a null, and a final inline value. -/
def c2values : List (Option (List Nat)) :=
  [some (utf8Bytes ""), some (utf8Bytes "short"),
   some (utf8Bytes "twelve_bytes"),
   some (utf8Bytes "this is longer than twelve bytes"), none,
   some (utf8Bytes "final value")]

/-- One `BINARY_VIEW` column schema for the concrete scenario. -/
def c2schema : List SchemaField :=
  [⟨utf8Bytes "binary_view_col", TypeTag.binaryView⟩]

/-- The concrete scenario's one-batch container stream. -/
def c2stream : List Nat := write c2schema [[buildColumn c2values]]

/-- C2: encoding the spec's six-element optional-byte sequence as a
`BINARY_VIEW` column, writing a one-batch container, reopening and reading
back yields exactly the original sequence, with elements 0, 1, 2 and 5
stored inline, element 3 out-of-line, and element 4 null. -/
theorem c2_concrete_scenario :
    containerBatch c2stream 0 = .ok [buildColumn c2values] ∧
    (List.range 6).map (columnValue (buildColumn c2values)) =
      c2values.map (fun v => .ok v) ∧
    descIsInline ((buildColumn c2values).views.getD 0
      ⟨0, List.replicate 12 0⟩) = true ∧
    descIsInline ((buildColumn c2values).views.getD 1
      ⟨0, List.replicate 12 0⟩) = true ∧
    descIsInline ((buildColumn c2values).views.getD 2
      ⟨0, List.replicate 12 0⟩) = true ∧
    descIsInline ((buildColumn c2values).views.getD 5
      ⟨0, List.replicate 12 0⟩) = true ∧
    descIsInline ((buildColumn c2values).views.getD 3
      ⟨0, List.replicate 12 0⟩) = false ∧
    isValid (buildColumn c2values) 4 = false ∧
    columnValue (buildColumn c2values) 4 = .ok none := by
  refine ⟨by decide, by decide, by decide, by decide, by decide, by decide,
    by decide, by decide, by decide⟩

/-! ## Fixture data embedded from `generate_test_data.py` -/

/-- The `binary_data` list of `generate_binaryview_test_data`. -/
def binary_data : List (Option (List Nat)) :=
  [some (utf8Bytes ""), some (utf8Bytes "short"),
   some (utf8Bytes "twelve_bytes"),
   some (utf8Bytes "this is longer than twelve bytes"),
   some (List.replicate 100 120), some (utf8Bytes "another short"), none,
   some (utf8Bytes "final value")]

/-- The `string_data` list of `generate_utf8view_test_data`, as UTF-8
bytes. -/
def string_data : List (Option (List Nat)) :=
  [some (utf8Bytes ""), some (utf8Bytes "hello"),
   some (utf8Bytes "twelve chars"),
   some (utf8Bytes "this is a longer string that exceeds twelve bytes"),
   some (utf8Bytes (String.mk (List.replicate 20 '🚀'))),
   some (utf8Bytes "just over 12"), none, some (utf8Bytes "final test")]

/-- The `binary_data` list of `generate_combined_test_data`. -/
def combined_binary_data : List (Option (List Nat)) :=
  [some (utf8Bytes "binary1"),
   some (utf8Bytes "this binary data is longer than twelve bytes"), none,
   some (utf8Bytes "bin4")]

/-- The `string_data` list of `generate_combined_test_data`, as UTF-8
bytes. -/
def combined_string_data : List (Option (List Nat)) :=
  [some (utf8Bytes "string1"),
   some (utf8Bytes "this string is also longer than twelve bytes"), none,
   some (utf8Bytes "str4")]

/-- Schema of `binaryview_test.arrow`. -/
def binaryviewSchema : List SchemaField :=
  [⟨utf8Bytes "binary_view_col", TypeTag.binaryView⟩]

/-- Schema of `utf8view_test.arrow`. -/
def utf8viewSchema : List SchemaField :=
  [⟨utf8Bytes "utf8_view_col", TypeTag.textView⟩]

/-- Schema of `combined_test.arrow`. -/
def combinedSchema : List SchemaField :=
  [⟨utf8Bytes "binary_view_col", TypeTag.binaryView⟩,
   ⟨utf8Bytes "utf8_view_col", TypeTag.textView⟩]

/-- Container stream for `binaryview_test.arrow`: one batch, assembled from
a single-element batch list as `main` does. -/
def binaryviewStream : List Nat :=
  write binaryviewSchema [[buildColumn binary_data]]

/-- Container stream for `utf8view_test.arrow`: one batch. -/
def utf8viewStream : List Nat :=
  write utf8viewSchema [[buildColumn string_data]]

/-- Container stream for `combined_test.arrow`: one batch, two columns. -/
def combinedStream : List Nat :=
  write combinedSchema
    [[buildColumn combined_binary_data, buildColumn combined_string_data]]

/-- C9: the string "just over 12" at index 5 of the Utf8View fixture data is
exactly 12 UTF-8 bytes (despite the adjacent comment claiming 13), so under
the exact 12-byte boundary rule it is stored inline, on the same side of the
boundary as the 12-byte element "twelve chars" at index 2. -/
theorem c9_just_over_12_is_inline :
    (utf8Bytes "just over 12").length = 12 ∧
    descIsInline (encode (some (utf8Bytes "just over 12")) 0 0).1 = true ∧
    (utf8Bytes "twelve chars").length = 12 ∧
    descIsInline (encode (some (utf8Bytes "twelve chars")) 0 0).1 = true ∧
    descIsInline ((buildColumn string_data).views.getD 5
      ⟨0, List.replicate 12 0⟩) = true ∧
    descIsInline ((buildColumn string_data).views.getD 2
      ⟨0, List.replicate 12 0⟩) = true := by
  refine ⟨by decide, by decide, by decide, by decide, by decide, by decide⟩

/-- Number of batch blocks a container's footer indexes, when it opens. -/
def numBatches (bs : List Nat) : Option Nat :=
  match openC bs with
  | .ok h => some h.entries.length
  | .error _ => none

/-- Element counts of the columns of a successfully read batch. -/
def batchCounts : Except ArrowError (List Column) → List Nat
  | .ok cols => cols.map Column.count
  | .error _ => []

theorem containerBatch_index_out_of_range (bs : List Nat) (m i : Nat)
    (hm : numBatches bs = some m) (hi : m ≤ i) :
    containerBatch bs i = .error .IndexOutOfRange := by
  cases hopen : openC bs with
  | error e => rw [numBatches, hopen] at hm; exact absurd hm (by simp)
  | ok h =>
    rw [numBatches, hopen] at hm
    injection hm with hm'
    have hnone : h.entries.get? i = none := by
      rw [List.get?_eq_getElem?]
      exact List.getElem?_eq_none (by omega)
    simp only [containerBatch, hopen, ok_bind, batchOf, hnone]

/-- C10: each of the three containers `main` writes holds exactly one batch
block (each table being assembled from a single-element batch list), within
each batch all columns share the same element count (8, 8 and 4
respectively), and `batch(i)` for any `i ≥ 1` fails with
`IndexOutOfRange`. -/
theorem c10_single_batch_files :
    numBatches binaryviewStream = some 1 ∧
    batchCounts (containerBatch binaryviewStream 0) = [8] ∧
    numBatches utf8viewStream = some 1 ∧
    batchCounts (containerBatch utf8viewStream 0) = [8] ∧
    numBatches combinedStream = some 1 ∧
    batchCounts (containerBatch combinedStream 0) = [4, 4] ∧
    (∀ i, 1 ≤ i →
      containerBatch binaryviewStream i = .error .IndexOutOfRange ∧
      containerBatch utf8viewStream i = .error .IndexOutOfRange ∧
      containerBatch combinedStream i = .error .IndexOutOfRange) := by
  refine ⟨by decide, by decide, by decide, by decide, by decide, by decide,
    fun i hi => ⟨?_, ?_, ?_⟩⟩
  · exact containerBatch_index_out_of_range _ 1 i (by decide) hi
  · exact containerBatch_index_out_of_range _ 1 i (by decide) hi
  · exact containerBatch_index_out_of_range _ 1 i (by decide) hi

theorem c10_single_batch_files_witness :
    (1 : Nat) ≤ 1 ∧
    (containerBatch binaryviewStream 1 = .error .IndexOutOfRange ∧
     containerBatch utf8viewStream 1 = .error .IndexOutOfRange ∧
     containerBatch combinedStream 1 = .error .IndexOutOfRange) :=
  ⟨by decide, c10_single_batch_files.2.2.2.2.2.2 1 (by decide)⟩

/-! ## Truncation behaviour of `open` (spec §8 footer integrity) -/

/-- Whether a fallible result succeeded. -/
def exceptOk {α : Type} : Except ArrowError α → Bool
  | .ok _ => true
  | .error _ => false

/-- A payload value that re-embeds a complete fake (zero-batch) footer and
trailer: 12 zero bytes parse as a footer with no batches and schema entry
(0, 0), followed by the footer-length field and the magic. -/
def c7value : List Nat := List.replicate 12 0 ++ (le32 12 ++ MAGIC)

/-- One-column schema for the truncation counterexample. -/
def c7schema : List SchemaField := [⟨[99], TypeTag.binaryView⟩]

/-- Container whose backing buffer contains `c7value`. -/
def c7stream : List Nat := write c7schema [[buildColumn [some c7value]]]

/-- The leading magic of a written container. -/
theorem write_take_magic (schema : List SchemaField)
    (batches : List (List Column)) :
    (write schema batches).take MAGIC.length = MAGIC := by
  have hw : write schema batches =
      MAGIC ++ (serializeSchemaMsg schema ++
        ((batches.map serializeBlock).flatten ++
        (serializeFooter (MAGIC.length, (serializeSchemaMsg schema).length)
          (blockEntries (MAGIC.length + (serializeSchemaMsg schema).length)
            (batches.map serializeBlock)) ++
        (le32 (serializeFooter (MAGIC.length,
            (serializeSchemaMsg schema).length)
          (blockEntries (MAGIC.length + (serializeSchemaMsg schema).length)
            (batches.map serializeBlock))).length ++ MAGIC)))) := by
    simp [write, List.append_assoc]
  rw [hw]
  exact take_append_of_length _ _ _ rfl

/-- C7 (amended): truncating a written container by any nonzero number of
trailing bytes makes `open` fail with `TruncatedFile` or `BadMagic`,
provided the magic sequence does not occur at any interior offset of the
stream (offset at least 10 with the occurrence ending before the stream's
end). -/
theorem c7_truncation_rejected (schema : List SchemaField)
    (batches : List (List Column)) (k : Nat) (hk : 0 < k)
    (hkle : k ≤ (write schema batches).length)
    (hnomagic : ∀ p < (write schema batches).length, 10 ≤ p →
      p + MAGIC.length < (write schema batches).length →
      sliceL (write schema batches) p MAGIC.length ≠ MAGIC) :
    openC ((write schema batches).take ((write schema batches).length - k)) =
        .error .TruncatedFile ∨
    openC ((write schema batches).take ((write schema batches).length - k)) =
        .error .BadMagic := by
  set s := write schema batches with hs
  set t := s.take (s.length - k) with ht
  have htl : t.length = s.length - k := by
    rw [ht, List.length_take]
    omega
  by_cases hsmall : t.length < minFrame
  · left
    rw [openC, if_pos hsmall]
  · right
    have hM : MAGIC.length = 6 := rfl
    have h16 : 16 ≤ t.length := by
      have : minFrame = 16 := rfl
      omega
    have htake : t.take MAGIC.length = MAGIC := by
      rw [ht, List.take_take]
      have hmin : min MAGIC.length (s.length - k) = MAGIC.length := by
        simp only [hM]
        omega
      rw [hmin]
      exact write_take_magic schema batches
    have hdropne : t.drop (t.length - MAGIC.length) ≠ MAGIC := by
      rw [ht, htl, List.drop_take]
      have hsub : s.length - k - (s.length - k - MAGIC.length) =
          MAGIC.length := by
        simp only [hM]
        omega
      rw [hsub]
      refine hnomagic (s.length - k - MAGIC.length) (by omega) ?_ ?_
      · simp only [hM]
        omega
      · simp only [hM]
        omega
    rw [openC, if_neg hsmall, if_neg (not_not_intro htake), if_pos hdropne]

theorem c7_truncation_rejected_witness :
    (0 : Nat) < 1 ∧
    1 ≤ (write c1schema [c1batch.map buildColumn]).length ∧
    (∀ p < (write c1schema [c1batch.map buildColumn]).length, 10 ≤ p →
      p + MAGIC.length < (write c1schema [c1batch.map buildColumn]).length →
      sliceL (write c1schema [c1batch.map buildColumn]) p MAGIC.length ≠
        MAGIC) ∧
    (openC ((write c1schema [c1batch.map buildColumn]).take
        ((write c1schema [c1batch.map buildColumn]).length - 1)) =
        .error .TruncatedFile ∨
     openC ((write c1schema [c1batch.map buildColumn]).take
        ((write c1schema [c1batch.map buildColumn]).length - 1)) =
        .error .BadMagic) :=
  ⟨by decide, by decide, by decide,
   c7_truncation_rejected c1schema [c1batch.map buildColumn] 1 (by decide)
     (by decide) (by decide)⟩

/-- C7 as stated is false on the modelled format: truncating `c7stream` by
exactly 32 bytes exposes the fake trailer embedded in its payload, and
`open` succeeds on the truncated stream. -/
theorem c7_truncation_counterexample :
    (0 : Nat) < 32 ∧ (32 : Nat) ≤ c7stream.length ∧
    exceptOk (openC (c7stream.take (c7stream.length - 32))) = true := by
  refine ⟨by decide, by decide, by decide⟩

/-! ## Validator characterization (spec §4.6) -/

theorem bind_eq_ok {α β : Type} (x : Except ArrowError α)
    (f : α → Except ArrowError β) (b : β) :
    x >>= f = .ok b ↔ ∃ a, x = .ok a ∧ f a = .ok b := by
  cases x with
  | error e =>
    constructor
    · intro h
      exact absurd h (by simp [error_bind])
    · rintro ⟨a, ha, _⟩
      exact absurd ha (by simp)
  | ok a =>
    constructor
    · intro h
      exact ⟨a, rfl, h⟩
    · rintro ⟨a', ha, hf⟩
      injection ha with ha'
      subst ha'
      exact hf

theorem takeE_eq_ok (k : Nat) (bs a r : List Nat)
    (h : takeE k bs = .ok (a, r)) : a.length = k ∧ a ++ r = bs := by
  rw [takeE] at h
  by_cases hle : k ≤ bs.length
  · rw [if_pos hle] at h
    injection h with h'
    have ha : a = bs.take k := by
      have := congrArg Prod.fst h'
      simpa using this.symm
    have hr : r = bs.drop k := by
      have := congrArg Prod.snd h'
      simpa using this.symm
    subst ha
    subst hr
    exact ⟨by simp [List.length_take]; omega, List.take_append_drop k bs⟩
  · rw [if_neg hle] at h
    exact absurd h (by simp)

theorem checkView_ok_iff (d : ViewDescriptor) (bufs : List (List Nat)) :
    checkView d bufs = .ok () ↔ (12 < d.length →
      ∃ buf, bufs.get? (viewIdx d) = some buf ∧
        viewOff d + d.length ≤ buf.length) := by
  rw [checkView]
  by_cases h12 : d.length ≤ 12
  · rw [if_pos h12]
    simp
    omega
  · rw [if_neg h12]
    cases hget : bufs.get? (viewIdx d) with
    | none =>
      show (Except.error ArrowError.BufferIndexOutOfRange :
          Except ArrowError Unit) = .ok () ↔
        (12 < d.length → ∃ buf, (none : Option (List Nat)) = some buf ∧
          viewOff d + d.length ≤ buf.length)
      constructor
      · intro h
        exact absurd h (by simp)
      · intro h
        obtain ⟨buf, hbuf, _⟩ := h (by omega)
        exact absurd hbuf (by simp)
    | some buf =>
      show (if viewOff d + d.length ≤ buf.length then
          (Except.ok () : Except ArrowError Unit)
        else .error .MalformedView) = .ok () ↔
        (12 < d.length → ∃ b, some buf = some b ∧
          viewOff d + d.length ≤ b.length)
      by_cases hb : viewOff d + d.length ≤ buf.length
      · rw [if_pos hb]
        exact ⟨fun _ _ => ⟨buf, rfl, hb⟩, fun _ => rfl⟩
      · rw [if_neg hb]
        constructor
        · intro h
          exact absurd h (by simp)
        · intro h
          obtain ⟨b, hbuf', hle'⟩ := h (by omega)
          injection hbuf' with he
          subst he
          exact absurd hle' hb

theorem parseBitmap_ok_length (n : Nat) (bs : List Nat)
    (bm : List Nat) (rest : List Nat)
    (h : parseBitmap n bs = .ok (some bm, rest)) :
    bm.length = (n + 7) / 8 := by
  rw [parseBitmap] at h
  simp only [bind_eq_ok] at h
  obtain ⟨⟨f4, bs1⟩, h1, h⟩ := h
  dsimp only at h
  by_cases h0 : readLe32 f4 = 0
  · rw [if_pos h0] at h
    exact absurd h (by simp)
  · rw [if_neg h0] at h
    simp only [bind_eq_ok] at h
    obtain ⟨⟨l4, t1⟩, hb1, u', hcb, ⟨bmBytes, t2⟩, hb2, ⟨pd2, t3⟩, hb3,
      hfin⟩ := h
    injection hfin with hfin'
    have hbm : bmBytes = bm := by
      have := congrArg Prod.fst hfin'
      simpa using this
    subst hbm
    have hlen := (takeE_eq_ok _ _ _ _ hb2).1
    rw [checkBitmapLen] at hcb
    by_cases hbl : readLe32 l4 = (n + 7) / 8
    · rw [hlen, hbl]
    · rw [if_neg hbl] at hcb
      exact absurd hcb (by simp)

theorem parseColumn_ok_valid (n : Nat) (bs : List Nat) (c : Column)
    (rest : List Nat) (h : parseColumn n bs = .ok (c, rest)) :
    validateViews c.views c.buffers = .ok () ∧
    ∀ bm, c.bitmap = some bm → bm.length = (n + 7) / 8 := by
  rw [parseColumn] at h
  simp only [bind_eq_ok] at h
  obtain ⟨⟨bm0, bs2⟩, h2, ⟨vb, bs3⟩, h3, ⟨pd, bs4⟩, h4,
    ⟨nb4, bs5⟩, h5, ⟨bufs, bs6⟩, h6, u, h7, h8⟩ := h
  injection h8 with h8'
  have hc : c = ⟨n, bm0, parseViews n vb, bufs⟩ := by
    have := congrArg Prod.fst h8'
    simpa using this.symm
  subst hc
  cases u
  refine ⟨h7, ?_⟩
  intro bm hbm
  simp only at hbm
  subst hbm
  exact parseBitmap_ok_length n bs bm bs2 h2

theorem openC_ok_ranges (bs : List Nat) (h : Handle)
    (hopen : openC bs = .ok h) :
    ∀ p ∈ h.schemaEntry :: h.entries, p.1 + p.2 ≤ bs.length := by
  rw [openC] at hopen
  by_cases h1 : bs.length < minFrame
  · rw [if_pos h1] at hopen
    exact absurd hopen (by simp)
  rw [if_neg h1] at hopen
  by_cases h2 : bs.take MAGIC.length ≠ MAGIC
  · rw [if_pos h2] at hopen
    exact absurd hopen (by simp)
  rw [if_neg h2] at hopen
  by_cases h3 : bs.drop (bs.length - MAGIC.length) ≠ MAGIC
  · rw [if_pos h3] at hopen
    exact absurd hopen (by simp)
  rw [if_neg h3] at hopen
  have hopen' : (if bs.length < minFrame +
      readLe32 (bs.drop (bs.length - MAGIC.length - 4)) then
        (.error .TruncatedFile : Except ArrowError Handle)
      else do
        let (se, es) ← parseFooter (sliceL bs (bs.length - MAGIC.length - 4 -
          readLe32 (bs.drop (bs.length - MAGIC.length - 4)))
          (readLe32 (bs.drop (bs.length - MAGIC.length - 4))))
        checkRanges bs.length (se :: es)
        .ok ⟨bs, se, es⟩) = .ok h := hopen
  by_cases h4 : bs.length < minFrame +
      readLe32 (bs.drop (bs.length - MAGIC.length - 4))
  · rw [if_pos h4] at hopen'
    exact absurd hopen' (by simp)
  rw [if_neg h4] at hopen'
  simp only [bind_eq_ok] at hopen'
  obtain ⟨⟨se, es⟩, hpf, u, hcr, hfin⟩ := hopen'
  injection hfin with hfin'
  subst hfin'
  rw [checkRanges] at hcr
  by_cases hall : (se :: es).all (fun p => p.1 + p.2 ≤ bs.length)
  · intro p hp
    have := List.all_eq_true.mp hall p hp
    simpa using this
  · rw [if_neg hall] at hcr
    exact absurd hcr (by simp)

/-- C8: during open/batch construction the validator rejects containers with
a view length not reconstructible within its referenced buffer, a buffer
index not strictly below the buffer count, a present bitmap whose length
differs from ceil(count/8), or a footer entry outside the byte region —
failing with `MalformedView`, `BufferIndexOutOfRange`,
`BitmapLengthMismatch` or `FooterRangeInvalid` respectively; a column or
handle is only ever produced when every check passed (no partial
decoding). -/
theorem c8_validator_rejects :
    (∀ n bs c rest, parseColumn n bs = .ok (c, rest) →
      validateViews c.views c.buffers = .ok () ∧
      ∀ bm, c.bitmap = some bm → bm.length = (n + 7) / 8) ∧
    (∀ views bufs, validateViews views bufs = .ok () ↔
      ∀ d ∈ views, 12 < d.length →
        ∃ buf, bufs.get? (viewIdx d) = some buf ∧
          viewOff d + d.length ≤ buf.length) ∧
    (∀ d bufs, 12 < d.length → bufs.get? (viewIdx d) = none →
      checkView d bufs = .error .BufferIndexOutOfRange) ∧
    (∀ d bufs buf, 12 < d.length → bufs.get? (viewIdx d) = some buf →
      buf.length < viewOff d + d.length →
      checkView d bufs = .error .MalformedView) ∧
    (∀ n bl, bl ≠ (n + 7) / 8 →
      checkBitmapLen n bl = .error .BitmapLengthMismatch) ∧
    (∀ bs h, openC bs = .ok h →
      ∀ p ∈ h.schemaEntry :: h.entries, p.1 + p.2 ≤ bs.length) ∧
    (∀ len es, ¬ (∀ p ∈ es, p.1 + p.2 ≤ len) →
      checkRanges len es = .error .FooterRangeInvalid) := by
  refine ⟨parseColumn_ok_valid, ?_, ?_, ?_, ?_, openC_ok_ranges, ?_⟩
  · intro views bufs
    rw [validateViews_ok_iff]
    constructor
    · intro h d hd h12
      exact (checkView_ok_iff d bufs).mp (h d hd) h12
    · intro h d hd
      exact (checkView_ok_iff d bufs).mpr (h d hd)
  · intro d bufs h12 hget
    rw [checkView, if_neg (by omega), hget]
  · intro d bufs buf h12 hget hlt
    rw [checkView, if_neg (by omega), hget]
    show (if viewOff d + d.length ≤ buf.length then
        (Except.ok () : Except ArrowError Unit)
      else .error .MalformedView) = .error .MalformedView
    rw [if_neg (by omega)]
  · intro n bl hbl
    rw [checkBitmapLen, if_neg hbl]
  · intro len es hne
    rw [checkRanges, if_neg]
    intro hall
    exact hne fun p hp => by simpa using List.all_eq_true.mp hall p hp

theorem c8_validator_rejects_witness :
    (12 < (13 : Nat) ∧
     ([] : List (List Nat)).get? (viewIdx ⟨13, List.replicate 12 0⟩) = none ∧
     checkView ⟨13, List.replicate 12 0⟩ [] =
       .error .BufferIndexOutOfRange) ∧
    ((0 : Nat) ≠ (1 + 7) / 8 ∧
     checkBitmapLen 1 0 = .error .BitmapLengthMismatch) ∧
    (¬ (∀ p ∈ [((1 : Nat), (0 : Nat))], p.1 + p.2 ≤ 0) ∧
     checkRanges 0 [(1, 0)] = .error .FooterRangeInvalid) :=
  ⟨⟨by decide, by decide,
    c8_validator_rejects.2.2.1 ⟨13, List.replicate 12 0⟩ [] (by decide)
      (by decide)⟩,
   ⟨by decide, c8_validator_rejects.2.2.2.2.1 1 0 (by decide)⟩,
   ⟨by decide, c8_validator_rejects.2.2.2.2.2.2 0 [(1, 0)] (by decide)⟩⟩

end ArrowView
